import Mathlib

/-!
Verification of the motionalyx-render-endpoint service.

The JavaScript sources are shallowly embedded in Lean:
* millisecond values are integers (`ℤ`); the JS `Number` arithmetic that the
  service performs on them (division by 1000, proportional scaling) is modelled
  exactly over `ℚ`, with `Math.floor`/`Math.round` as `Int.floor`;
* a field that JS may hold as a missing or non-numeric value (so that
  `Number(x)` is `NaN`) is modelled as `Option ℚ`, `none` playing the role of
  `NaN`/`undefined`;
* strings are `String` or `List Char` where character-level reasoning is needed;
* the filesystem seen by the asset cache is the list of paths that exist;
* the event-driven ffmpeg supervisor and the `/render` handler are modelled as
  pure functions of the request, the shared busy flag, and a record of the
  external world (download results, probe result, subprocess behaviour).
-/

namespace Mx

/-- JS `Math.round` on a (finite) number: round half toward +∞. -/
def jsRound (q : ℚ) : ℤ := ⌊q + 1/2⌋

/-- JS `Math.floor` on a (finite) number. -/
def jsFloor (q : ℚ) : ℤ := ⌊q⌋

/-- The `clamp` helper of `server.js`: `Math.max(min, Math.min(max, n))`. -/
def clamp (n lo hi : ℤ) : ℤ := max lo (min hi n)

theorem jsRound_intCast (n : ℤ) : jsRound (n : ℚ) = n := by
  unfold jsRound
  rw [Int.floor_int_add]
  norm_num

/-! ### Video duration (claim C7)

`src/unnamed/part_000` (diagnostic build), `/render` handler:
```
const audioMs = await ffprobeDurationMs(audioPath, { reqId });
const audioSec = audioMs / 1000;
const videoSec = audioSec + 4.0;
const videoMs = Math.round(videoSec * 1000);
```
`src/server.js` (cached variant): `EXTRA_TAIL_MS = 4000` and
`videoTargetMs = audioMs + EXTRA_TAIL_MS`.
-/

/-- `EXTRA_TAIL_MS` of `src/server.js`: the fixed 4-second end-card tail. -/
def EXTRA_TAIL_MS : ℤ := 4000

/-- `videoTargetMs` of `src/server.js`: `audioMs + EXTRA_TAIL_MS`. -/
def videoTargetMs (audioMs : ℤ) : ℤ := audioMs + EXTRA_TAIL_MS

/-- `audioSec` of `part_000`: `audioMs / 1000` (exact rational semantics). -/
def audioSecOf (audioMs : ℤ) : ℚ := (audioMs : ℚ) / 1000

/-- `videoSec` of `part_000`: `audioSec + 4.0`. -/
def videoSecOf (audioMs : ℤ) : ℚ := audioSecOf audioMs + 4

/-- `videoMs` of `part_000`: `Math.round(videoSec * 1000)`. -/
def videoMsOf (audioMs : ℤ) : ℤ := jsRound (videoSecOf audioMs * 1000)

/-- C7: For every valid job with measured audio duration `audio_ms`, the
reported video duration satisfies `video_ms = audio_ms + 4000` — the fixed
4-second end-card tail — computed exactly in integer milliseconds despite the
intermediate conversion through seconds (`part_000` route through `audioSec`
and `videoSec`), and likewise for the direct `videoTargetMs` computation of
`src/server.js`.  JS number arithmetic is modelled as exact rational
arithmetic. -/
theorem C7_video_duration_exact (audioMs : ℤ) :
    videoMsOf audioMs = audioMs + 4000 ∧ videoTargetMs audioMs = audioMs + 4000 := by
  constructor
  · have h : videoSecOf audioMs * 1000 = ((audioMs + 4000 : ℤ) : ℚ) := by
      unfold videoSecOf audioSecOf
      push_cast
      ring
    rw [videoMsOf, h, jsRound_intCast]
  · rfl

/-! ### Drawtext escaping (claim C8)

`src/unnamed/part_000`, `escapeDrawtextText`:
```
return String(input ?? "")
  .replace(/\\/g, "\\\\")
  .replace(/:/g, "\\:")
  .replace(/'/g, "\\'")
  .replace(/%/g, "\\%")
  .replace(/\r\n|\r|\n/g, "\\n");
```
Each of the first four passes is a global character-for-string replacement,
modelled as `List.flatMap`; the newline pass consumes `\r\n` as a unit and is
modelled as a two-character scan. -/

/-- The backslash character. -/
def bs : Char := Char.ofNat 92

/-- The single-quote character. -/
def sq : Char := Char.ofNat 39

/-- Pass 1 of `escapeDrawtextText`: `.replace(/\\/g, "\\\\")`. -/
def repBackslash (c : Char) : List Char := if c = bs then [bs, bs] else [c]

/-- Pass 2: `.replace(/:/g, "\\:")`. -/
def repColon (c : Char) : List Char := if c = ':' then [bs, ':'] else [c]

/-- Pass 3: `.replace(/'/g, "\\'")`. -/
def repQuote (c : Char) : List Char := if c = sq then [bs, sq] else [c]

/-- Pass 4: `.replace(/%/g, "\\%")`. -/
def repPercent (c : Char) : List Char := if c = '%' then [bs, '%'] else [c]

/-- Pass 5: `.replace(/\r\n|\r|\n/g, "\\n")` — a left-to-right scan in which
`\r\n` is consumed as a single match, exactly like the JS regex engine. -/
def repNewlines : List Char → List Char
  | [] => []
  | [c] => if c = '\r' || c = '\n' then [bs, 'n'] else [c]
  | c :: d :: t =>
    if c = '\r' then
      if d = '\n' then bs :: 'n' :: repNewlines t
      else bs :: 'n' :: repNewlines (d :: t)
    else if c = '\n' then bs :: 'n' :: repNewlines (d :: t)
    else c :: repNewlines (d :: t)

/-- `escapeDrawtextText` of `part_000`: the five sequential replacement
passes. -/
def escapeDrawtextText (s : List Char) : List Char :=
  repNewlines ((((s.flatMap repBackslash).flatMap repColon).flatMap
    repQuote).flatMap repPercent)

/-- A string is drawtext-safe when it is a concatenation of escape sequences
(backslash followed by one of `\ : ' % n`) and characters that need no
escaping; in particular it contains no unescaped backslash, colon, quote or
percent sign and no raw newline. -/
def wellEscaped : List Char → Bool
  | [] => true
  | c :: t =>
    if c = bs then
      match t with
      | [] => false
      | d :: t' => (d = bs || d = ':' || d = sq || d = '%' || d = 'n') && wellEscaped t'
    else
      !(c = ':' || c = sq || c = '%' || c = '\r' || c = '\n') && wellEscaped t

/-- The image of one input character under the four character-level passes. -/
def encChar (c : Char) : List Char :=
  (((repBackslash c).flatMap repColon).flatMap repQuote).flatMap repPercent

theorem flatMap_four_eq (s : List Char) :
    (((s.flatMap repBackslash).flatMap repColon).flatMap repQuote).flatMap repPercent
      = s.flatMap encChar := by
  induction s with
  | nil => rfl
  | cons c t ih =>
    simp only [List.flatMap_cons, List.flatMap_append, ih]
    rfl

theorem escapeDrawtextText_eq_flat (s : List Char) :
    escapeDrawtextText s = repNewlines (s.flatMap encChar) := by
  unfold escapeDrawtextText
  rw [flatMap_four_eq]

theorem encChar_eq (c : Char) :
    encChar c =
      if c = bs then [bs, bs]
      else if c = ':' then [bs, ':']
      else if c = sq then [bs, sq]
      else if c = '%' then [bs, '%']
      else [c] := by
  unfold encChar repBackslash repColon repQuote repPercent
  by_cases h1 : c = bs
  · subst h1; decide
  · by_cases h2 : c = ':'
    · subst h2; decide
    · by_cases h3 : c = sq
      · subst h3; decide
      · by_cases h4 : c = '%'
        · subst h4; decide
        · simp [h1, h2, h3, h4]

theorem repNewlines_safe_cons (c : Char) (u : List Char) (hr : c ≠ '\r') (hn : c ≠ '\n') :
    repNewlines (c :: u) = c :: repNewlines u := by
  match u with
  | [] => simp [repNewlines, hr, hn]
  | e :: u' =>
    show (if c = '\r' then _ else if c = '\n' then _ else c :: repNewlines (e :: u')) = _
    rw [if_neg hr, if_neg hn]

theorem repNewlines_nl_cons (u : List Char) :
    repNewlines ('\n' :: u) = bs :: 'n' :: repNewlines u := by
  match u with
  | [] => rfl
  | e :: u' => rfl

theorem repNewlines_rn (u : List Char) :
    repNewlines ('\r' :: '\n' :: u) = bs :: 'n' :: repNewlines u := rfl

theorem repNewlines_r_cons (e : Char) (u : List Char) (he : e ≠ '\n') :
    repNewlines ('\r' :: e :: u) = bs :: 'n' :: repNewlines (e :: u) := by
  show (if '\r' = '\r' then
        if e = '\n' then bs :: 'n' :: repNewlines u
        else bs :: 'n' :: repNewlines (e :: u)
      else if ('\r' : Char) = '\n' then bs :: 'n' :: repNewlines (e :: u)
      else '\r' :: repNewlines (e :: u)) = _
  rw [if_pos rfl, if_neg he]

theorem repNewlines_bs_pair (x : Char) (u : List Char) (hr : x ≠ '\r') (hn : x ≠ '\n') :
    repNewlines (bs :: x :: u) = bs :: x :: repNewlines u := by
  rw [repNewlines_safe_cons bs (x :: u) (by decide) (by decide),
    repNewlines_safe_cons x u hr hn]

theorem wellEscaped_bs_pair (x : Char) (t : List Char)
    (hx : (x = bs || x = ':' || x = sq || x = '%' || x = 'n') = true) :
    wellEscaped (bs :: x :: t) = wellEscaped t := by
  simp [wellEscaped, hx]

theorem wellEscaped_cons_safe (c : Char) (t : List Char) (hb : c ≠ bs)
    (hs : (c = ':' || c = sq || c = '%' || c = '\r' || c = '\n') = false) :
    wellEscaped (c :: t) = wellEscaped t := by
  rw [wellEscaped.eq_def]
  simp [hb, hs]

theorem c8_aux :
    ∀ n (s : List Char), s.length ≤ n →
      wellEscaped (repNewlines (s.flatMap encChar)) = true := by
  intro n
  induction n with
  | zero =>
    intro s hs
    have : s = [] := List.eq_nil_of_length_eq_zero (Nat.le_zero.mp hs)
    subst this
    rfl
  | succ n ih =>
    intro s hs
    match s with
    | [] => rfl
    | c :: t =>
      have hlen : t.length ≤ n := by simpa using hs
      rw [List.flatMap_cons]
      by_cases hb : c = bs
      · subst hb
        rw [show encChar bs = [bs, bs] from by rw [encChar_eq]; rfl,
          List.cons_append, List.singleton_append,
          repNewlines_bs_pair bs _ (by decide) (by decide),
          wellEscaped_bs_pair bs _ (by decide)]
        exact ih t hlen
      · by_cases hc : c = ':'
        · subst hc
          rw [show encChar ':' = [bs, ':'] from by rw [encChar_eq]; rfl,
            List.cons_append, List.singleton_append,
            repNewlines_bs_pair ':' _ (by decide) (by decide),
            wellEscaped_bs_pair ':' _ (by decide)]
          exact ih t hlen
        · by_cases hq : c = sq
          · subst hq
            rw [show encChar sq = [bs, sq] from by rw [encChar_eq]; rfl,
              List.cons_append, List.singleton_append,
              repNewlines_bs_pair sq _ (by decide) (by decide),
              wellEscaped_bs_pair sq _ (by decide)]
            exact ih t hlen
          · by_cases hp : c = '%'
            · subst hp
              rw [show encChar '%' = [bs, '%'] from by rw [encChar_eq]; rfl,
                List.cons_append, List.singleton_append,
                repNewlines_bs_pair '%' _ (by decide) (by decide),
                wellEscaped_bs_pair '%' _ (by decide)]
              exact ih t hlen
            · by_cases hn : c = '\n'
              · subst hn
                rw [show encChar '\n' = ['\n'] from by rw [encChar_eq]; rfl,
                  List.singleton_append, repNewlines_nl_cons,
                  wellEscaped_bs_pair 'n' _ (by decide)]
                exact ih t hlen
              · by_cases hr : c = '\r'
                · subst hr
                  rw [show encChar '\r' = ['\r'] from by rw [encChar_eq]; rfl,
                    List.singleton_append]
                  match t with
                  | [] => rfl
                  | d :: t' =>
                    have hlen' : (d :: t').length ≤ n := hlen
                    by_cases hdn : d = '\n'
                    · subst hdn
                      rw [List.flatMap_cons,
                        show encChar '\n' = ['\n'] from by rw [encChar_eq]; rfl,
                        List.singleton_append, repNewlines_rn,
                        wellEscaped_bs_pair 'n' _ (by decide)]
                      exact ih t' (Nat.le_of_succ_le hlen')
                    · have hne : ∃ e u, (d :: t').flatMap encChar = e :: u ∧ e ≠ '\n' := by
                        rw [List.flatMap_cons, encChar_eq]
                        by_cases h1 : d = bs
                        · exact ⟨bs, bs :: t'.flatMap encChar, by simp [h1], by decide⟩
                        · by_cases h2 : d = ':'
                          · exact ⟨bs, ':' :: t'.flatMap encChar,
                              by simp [h2, show ¬(':' : Char) = bs from by decide],
                              by decide⟩
                          · by_cases h3 : d = sq
                            · exact ⟨bs, sq :: t'.flatMap encChar,
                                by simp [h3, show ¬sq = bs from by decide,
                                  show ¬sq = ':' from by decide],
                                by decide⟩
                            · by_cases h4 : d = '%'
                              · exact ⟨bs, '%' :: t'.flatMap encChar,
                                  by simp [h4, show ¬('%' : Char) = bs from by decide,
                                    show ¬('%' : Char) = ':' from by decide,
                                    show ¬('%' : Char) = sq from by decide],
                                  by decide⟩
                              · exact ⟨d, t'.flatMap encChar,
                                  by simp [h1, h2, h3, h4], hdn⟩
                      obtain ⟨e, u, hu, he⟩ := hne
                      rw [hu, repNewlines_r_cons e u he,
                        wellEscaped_bs_pair 'n' _ (by decide), ← hu]
                      exact ih (d :: t') hlen'
                · rw [show encChar c = [c] from by
                      rw [encChar_eq]; simp [hb, hc, hq, hp],
                    List.singleton_append,
                    repNewlines_safe_cons c _ hr hn,
                    wellEscaped_cons_safe c _ hb (by simp [hc, hq, hp, hr, hn])]
                  exact ih t hlen

/-- C8: For every title and footer string, `escapeDrawtextText` — applied by
`buildFilterComplex` before interpolating the text into the
`drawtext=…:text='…'` segment of the filter graph — escapes every backslash,
colon, single-quote and percent character and converts every embedded newline
(`\r\n`, `\r` or `\n`) into the `\n` escape sequence, so the interpolated
text segment contains none of these characters unescaped. -/
theorem C8_drawtext_escaping (s : List Char) :
    wellEscaped (escapeDrawtextText s) = true := by
  rw [escapeDrawtextText_eq_flat]
  exact c8_aux s.length s le_rfl

/-! ### Subtitle word wrapping (claim C9)

`src/unnamed/part_000`, `wrapSubtitle(text, maxChars = 26, maxLines = 2)`:
trim and collapse whitespace, return short text unchanged, otherwise greedily
pack words into lines, stop once `maxLines` lines have been pushed, and join
with the ASS newline `\N`. -/

/-- The ASCII whitespace characters matched by the JS `\s` class (the source
never feeds it non-ASCII whitespace). -/
def isWs (c : Char) : Bool :=
  c = ' ' || c = '\t' || c = '\n' || c = '\r' ||
    c = Char.ofNat 11 || c = Char.ofNat 12

/-- JS `String.prototype.trim`. -/
def jsTrim (s : List Char) : List Char :=
  ((s.dropWhile isWs).reverse.dropWhile isWs).reverse

/-- One pass of `.replace(/\s+/g, " ")`: each maximal whitespace run becomes a
single space.  `prevWs` records whether the previous character was part of a
run already replaced. -/
def collapseGo (prevWs : Bool) : List Char → List Char
  | [] => []
  | c :: t =>
    if isWs c then
      if prevWs then collapseGo true t else ' ' :: collapseGo true t
    else c :: collapseGo false t

/-- `.replace(/\s+/g, " ")`. -/
def collapseWs (s : List Char) : List Char := collapseGo false s

/-- JS `String.prototype.split(" ")`. -/
def splitSp : List Char → List (List Char)
  | [] => [[]]
  | c :: t =>
    if c = ' ' then [] :: splitSp t
    else
      match splitSp t with
      | [] => [[c]]
      | w :: ws => (c :: w) :: ws

/-- The `for (const w of words)` loop of `wrapSubtitle`: returns the pushed
lines together with the pending `cur` accumulator (the loop `break`s as soon
as `lines.length === maxLines`). -/
def wrapLoop (maxChars maxLines : ℕ) :
    List (List Char) → List Char → List (List Char) → List (List Char) × List Char
  | [], cur, lines => (lines, cur)
  | w :: ws, cur, lines =>
    if cur.isEmpty then wrapLoop maxChars maxLines ws w lines
    else if cur.length + 1 + w.length ≤ maxChars then
      wrapLoop maxChars maxLines ws (cur ++ ' ' :: w) lines
    else
      let lines' := lines ++ [cur]
      if lines'.length = maxLines then (lines', w)
      else wrapLoop maxChars maxLines ws w lines'

/-- `wrapSubtitle` of `part_000` (call sites use `maxChars = 26`,
`maxLines = 2`); the join separator is the two characters `\` and `N`. -/
def wrapSubtitle (text : List Char) (maxChars maxLines : ℕ) : List Char :=
  let raw := collapseWs (jsTrim text)
  if raw.isEmpty then []
  else if raw.length ≤ maxChars then raw
  else
    let p := wrapLoop maxChars maxLines (splitSp raw) [] []
    let final :=
      if p.1.length < maxLines ∧ ¬p.2.isEmpty then p.1 ++ [p.2] else p.1
    List.intercalate [bs, 'N'] (final.take maxLines)

/-- Number of occurrences of the two-character ASS line separator `\N`. -/
def countNSep : List Char → ℕ
  | [] => 0
  | [_] => 0
  | c :: d :: t =>
    if c = bs && d = 'N' then 1 + countNSep t else countNSep (d :: t)

theorem countNSep_cons_ne (c : Char) (u : List Char) (hc : c ≠ bs) :
    countNSep (c :: u) = countNSep u := by
  match u with
  | [] => rfl
  | d :: t =>
    show (if c = bs && d = 'N' then 1 + countNSep t else countNSep (d :: t)) = _
    simp [hc]

theorem countNSep_noBs (s : List Char) (h : bs ∉ s) : countNSep s = 0 := by
  induction s with
  | nil => rfl
  | cons c t ih =>
    rw [countNSep_cons_ne c t (fun hc => h (hc ▸ List.mem_cons_self c t))]
    exact ih (fun ht => h (List.mem_cons_of_mem c ht))

theorem countNSep_append_sep (a b : List Char) (ha : bs ∉ a) :
    countNSep (a ++ bs :: 'N' :: b) = 1 + countNSep b := by
  induction a with
  | nil =>
    show (if bs = bs && 'N' = 'N' then 1 + countNSep b else _) = _
    rw [if_pos (by decide)]
  | cons c a' ih =>
    rw [List.cons_append,
      countNSep_cons_ne c _ (fun hc => ha (hc ▸ List.mem_cons_self c a'))]
    exact ih (fun ht => ha (List.mem_cons_of_mem c ht))

theorem countNSep_intercalate_two (ls : List (List Char))
    (h : ∀ x ∈ ls, bs ∉ x) (hl : ls.length ≤ 2) :
    countNSep (List.intercalate [bs, 'N'] ls) ≤ 1 := by
  match ls with
  | [] => exact Nat.zero_le 1
  | [a] =>
    have he : List.intercalate [bs, 'N'] [a] = a := by
      simp [List.intercalate]
    rw [he, countNSep_noBs a (h a (by simp))]
    exact Nat.zero_le 1
  | [a, b] =>
    have he : List.intercalate [bs, 'N'] [a, b] = a ++ bs :: 'N' :: b := by
      simp [List.intercalate, List.intersperse]
    rw [he, countNSep_append_sep a b (h a (by simp)),
      countNSep_noBs b (h b (by simp))]
  | _ :: _ :: _ :: _ => simp at hl

theorem noBs_jsTrim (s : List Char) (h : bs ∉ s) : bs ∉ jsTrim s := by
  intro hm
  apply h
  unfold jsTrim at hm
  rw [List.mem_reverse] at hm
  have h1 := (List.dropWhile_sublist (l := (s.dropWhile isWs).reverse) isWs).mem hm
  rw [List.mem_reverse] at h1
  exact (List.dropWhile_sublist isWs).mem h1

theorem noBs_collapseGo (b : Bool) (s : List Char) (h : bs ∉ s) :
    bs ∉ collapseGo b s := by
  induction s generalizing b with
  | nil => intro hm; simp [collapseGo] at hm
  | cons c t ih =>
    have hc : c ≠ bs := fun hc => h (hc ▸ List.mem_cons_self c t)
    have ht : bs ∉ t := fun hm => h (List.mem_cons_of_mem c hm)
    intro hm
    unfold collapseGo at hm
    by_cases hw : isWs c
    · rw [if_pos hw] at hm
      by_cases hb : b
      · rw [if_pos hb] at hm
        exact ih true ht hm
      · rw [if_neg hb] at hm
        rcases List.mem_cons.mp hm with h1 | h1
        · exact absurd h1 (by decide)
        · exact ih true ht h1
    · rw [if_neg hw] at hm
      rcases List.mem_cons.mp hm with h1 | h1
      · exact hc h1.symm
      · exact ih false ht h1

theorem noBs_splitSp (s : List Char) (h : bs ∉ s) :
    ∀ w ∈ splitSp s, bs ∉ w := by
  induction s with
  | nil =>
    intro w hw
    simp [splitSp] at hw
    subst hw
    exact List.not_mem_nil bs
  | cons c t ih =>
    have hc : c ≠ bs := fun hc => h (hc ▸ List.mem_cons_self c t)
    have ht : bs ∉ t := fun hm => h (List.mem_cons_of_mem c hm)
    intro w hw
    unfold splitSp at hw
    by_cases hsp : c = ' '
    · rw [if_pos hsp] at hw
      rcases List.mem_cons.mp hw with h1 | h1
      · subst h1; exact List.not_mem_nil bs
      · exact ih ht w h1
    · rw [if_neg hsp] at hw
      match hrec : splitSp t with
      | [] =>
        rw [hrec] at hw
        rcases List.mem_cons.mp hw with h1 | h1
        · subst h1
          intro hm
          rcases List.mem_cons.mp hm with h2 | h2
          · exact hc h2.symm
          · exact absurd h2 (List.not_mem_nil bs)
        · exact absurd h1 (List.not_mem_nil w)
      | v :: vs =>
        rw [hrec] at hw
        rcases List.mem_cons.mp hw with h1 | h1
        · subst h1
          intro hm
          rcases List.mem_cons.mp hm with h2 | h2
          · exact hc h2.symm
          · exact ih ht v (hrec ▸ List.mem_cons_self v vs) h2
        · exact ih ht w (hrec ▸ List.mem_cons_of_mem v h1)

theorem noBs_wrapLoop (maxChars maxLines : ℕ) (ws : List (List Char))
    (cur : List Char) (lines : List (List Char))
    (hws : ∀ w ∈ ws, bs ∉ w) (hcur : bs ∉ cur) (hlines : ∀ x ∈ lines, bs ∉ x) :
    (∀ x ∈ (wrapLoop maxChars maxLines ws cur lines).1, bs ∉ x) ∧
      bs ∉ (wrapLoop maxChars maxLines ws cur lines).2 := by
  induction ws generalizing cur lines with
  | nil => exact ⟨hlines, hcur⟩
  | cons w ws' ih =>
    have hw : bs ∉ w := hws w (List.mem_cons_self w ws')
    have hws' : ∀ x ∈ ws', bs ∉ x := fun x hx => hws x (List.mem_cons_of_mem w hx)
    unfold wrapLoop
    by_cases h1 : cur.isEmpty
    · rw [if_pos h1]
      exact ih _ _ hws' hw hlines
    · rw [if_neg h1]
      by_cases h2 : cur.length + 1 + w.length ≤ maxChars
      · rw [if_pos h2]
        refine ih _ _ hws' ?_ hlines
        intro hm
        rcases List.mem_append.mp hm with h3 | h3
        · exact hcur h3
        · rcases List.mem_cons.mp h3 with h4 | h4
          · exact absurd h4 (by decide)
          · exact hw h4
      · rw [if_neg h2]
        have hlines' : ∀ x ∈ lines ++ [cur], bs ∉ x := by
          intro x hx
          rcases List.mem_append.mp hx with h3 | h3
          · exact hlines x h3
          · rw [List.mem_singleton.mp h3]; exact hcur
        by_cases h3 : (lines ++ [cur]).length = maxLines
        · rw [if_pos h3]
          exact ⟨hlines', hw⟩
        · rw [if_neg h3]
          exact ih _ _ hws' hw hlines'

/-- C9 counterexample: the claim "the output contains at most one `\N`
separator" fails when the input text itself contains the literal two-character
sequence `\N`: `wrapSubtitle` never escapes its input, so a 30-character
single word carrying two literal `\N` sequences passes through and the output
contains two of them. -/
theorem C9_counterexample :
    countNSep (wrapSubtitle ("aaaaaaaaaaaaaaaaaaaaaaaaaa\\N\\N".toList) 26 2) = 2 := by
  decide

/-- C9 (amended): `wrapSubtitle` joins at most two wrapped segments, so for
every input text that does not itself contain a backslash the returned string
contains at most one `\N` line separator — the subtitle renders on at most two
lines regardless of input length, later words being dropped rather than
wrapped onto further lines. -/
theorem C9_wrap_two_lines (text : List Char) (maxChars : ℕ) (h : bs ∉ text) :
    countNSep (wrapSubtitle text maxChars 2) ≤ 1 := by
  unfold wrapSubtitle
  have hraw : bs ∉ collapseWs (jsTrim text) := noBs_collapseGo false _ (noBs_jsTrim text h)
  by_cases h1 : (collapseWs (jsTrim text)).isEmpty
  · simp only [if_pos h1]
    exact Nat.zero_le 1
  · rw [if_neg h1]
    by_cases h2 : (collapseWs (jsTrim text)).length ≤ maxChars
    · rw [if_pos h2]
      rw [countNSep_noBs _ hraw]
      exact Nat.zero_le 1
    · rw [if_neg h2]
      have hwords := noBs_splitSp _ hraw
      have hloop := noBs_wrapLoop maxChars 2 (splitSp (collapseWs (jsTrim text)))
        [] [] hwords (List.not_mem_nil bs) (by intro x hx; exact absurd hx (List.not_mem_nil x))
      apply countNSep_intercalate_two
      · intro x hx
        have hx' := List.mem_of_mem_take hx
        by_cases h3 : (wrapLoop maxChars 2 (splitSp (collapseWs (jsTrim text))) [] []).1.length < 2
            ∧ ¬(wrapLoop maxChars 2 (splitSp (collapseWs (jsTrim text))) [] []).2.isEmpty
        · rw [if_pos h3] at hx'
          rcases List.mem_append.mp hx' with h4 | h4
          · exact hloop.1 x h4
          · rw [List.mem_singleton.mp h4]; exact hloop.2
        · rw [if_neg h3] at hx'
          exact hloop.1 x hx'
      · exact List.length_take_le 2 _

/-- Witness for C9 (amended) at a concrete long input. -/
theorem C9_wrap_two_lines_witness :
    bs ∉ ("the quick brown fox jumps over the lazy dog again".toList) ∧
      countNSep (wrapSubtitle ("the quick brown fox jumps over the lazy dog again".toList) 26 2) ≤ 1 :=
  ⟨by decide, C9_wrap_two_lines _ 26 (by decide)⟩

/-! ### The part_000 subtitle fitter (claims C2 and C10)

`src/unnamed/part_000`, `scaleSubtitleLinesToAudio(lines, audioMs)`:
```
if (!Array.isArray(lines) || lines.length === 0) return [];
const lastEnd = Number(lines[lines.length - 1]?.end_ms);
if (!Number.isFinite(lastEnd) || lastEnd <= 0) return lines;
const delta = Math.abs(lastEnd - audioMs);
if (delta <= 50) { const out = lines.map((l) => ({ ...l }));
  out[out.length - 1].end_ms = audioMs; return out; }
const factor = audioMs / lastEnd;
const out = lines.map((l) => ({
  start_ms: Math.round(Number(l.start_ms) * factor),
  end_ms: Math.round(Number(l.end_ms) * factor),
  text: String(l.text ?? ""), }));
out[0].start_ms = 0;
for (let i = 1; i < out.length; i++) out[i].start_ms = out[i - 1].end_ms;
out[out.length - 1].end_ms = audioMs;
return out;
```
A raw payload line; `none` models a field whose `Number(…)` coercion is `NaN`
(missing or non-numeric). -/

structure RawLine where
  start_ms : Option ℚ
  end_ms : Option ℚ
  text : String
deriving DecidableEq

/-- `Math.round(Number(x) * factor)`: `NaN` (`none`) propagates. -/
def roundScaled (f : ℚ) (x : Option ℚ) : Option ℚ :=
  x.map (fun q => ((jsRound (q * f) : ℤ) : ℚ))

/-- `out[out.length - 1].end_ms = audioMs`. -/
def setLastEndQ (v : ℚ) : List RawLine → List RawLine
  | [] => []
  | [l] => [{ l with end_ms := some v }]
  | l :: ls => l :: setLastEndQ v ls

/-- The re-sequencing loop `for (i = 1; …) out[i].start_ms = out[i-1].end_ms`
carrying the already-processed predecessor. -/
def forceGo (prev : RawLine) : List RawLine → List RawLine
  | [] => [prev]
  | x :: xs => prev :: forceGo { x with start_ms := prev.end_ms } xs

/-- `out[0].start_ms = 0` followed by the re-sequencing loop. -/
def forceStarts : List RawLine → List RawLine
  | [] => []
  | h :: t => forceGo { h with start_ms := some 0 } t

/-- `scaleSubtitleLinesToAudio` of `part_000`. -/
def scaleSubtitleLinesToAudio (lines : List RawLine) (audioMs : ℤ) : List RawLine :=
  match lines.getLast? with
  | none => []
  | some last =>
    match last.end_ms with
    | none => lines
    | some le =>
      if le ≤ 0 then lines
      else if |le - (audioMs : ℚ)| ≤ 50 then setLastEndQ (audioMs : ℚ) lines
      else
        let f : ℚ := (audioMs : ℚ) / le
        setLastEndQ (audioMs : ℚ) (forceStarts (lines.map (fun l =>
          { start_ms := roundScaled f l.start_ms,
            end_ms := roundScaled f l.end_ms,
            text := l.text })))

/-- Successor lines start where their predecessor ends. -/
def chainRel (a b : RawLine) : Prop := b.start_ms = a.end_ms

instance : DecidableRel chainRel := fun a b => by
  unfold chainRel
  infer_instance

theorem forceGo_eq (t : List RawLine) (prev : RawLine)
    (h : List.Chain' chainRel (prev :: t)) : forceGo prev t = prev :: t := by
  induction t generalizing prev with
  | nil => rfl
  | cons x xs ih =>
    have hrel : chainRel prev x := (List.chain'_cons.mp h).1
    have hx : { x with start_ms := prev.end_ms } = x := by
      cases x
      simpa [RawLine.mk.injEq] using hrel.symm
    unfold forceGo
    rw [hx]
    rw [ih x (List.Chain'.tail h)]

theorem forceStarts_eq (l : List RawLine)
    (h0 : l.head?.map RawLine.start_ms = some (some 0))
    (hch : List.Chain' chainRel l) : forceStarts l = l := by
  match l with
  | [] => rfl
  | h :: t =>
    have hh : h.start_ms = some 0 := by simpa using h0
    have hfix : { h with start_ms := some (0 : ℚ) } = h := by
      cases h
      simpa [RawLine.mk.injEq] using hh.symm
    have hred : forceStarts (h :: t) = forceGo { h with start_ms := some 0 } t := rfl
    rw [hred, hfix]
    exact forceGo_eq t h hch

theorem setLastEndQ_eq_self (v : ℚ) (l : List RawLine)
    (h : ∀ x, l.getLast? = some x → x.end_ms = some v) : setLastEndQ v l = l := by
  induction l with
  | nil => rfl
  | cons a t ih =>
    match t with
    | [] =>
      have ha : a.end_ms = some v := h a rfl
      show [{ a with end_ms := some v }] = [a]
      cases a
      simpa [RawLine.mk.injEq] using ha.symm
    | b :: t' =>
      show a :: setLastEndQ v (b :: t') = a :: b :: t'
      rw [ih (fun x hx => h x (by rw [List.getLast?_cons_cons]; exact hx))]

/-- C2: For every contiguous subtitle timeline (each line starting where the
previous one ends, the first at 0) whose last line ends at 9000 ms, fitting to
a probed audio duration of 10000 ms takes the proportional-scaling branch with
factor `10000/9000`: every line's `start_ms` and `end_ms` in the output is the
input value multiplied by `10000/9000` and rounded to integer milliseconds,
and the final fitted line's `end_ms` is exactly 10000. -/
theorem C2_scale_9000_to_10000 (lines : List RawLine)
    (h0 : lines.head?.map RawLine.start_ms = some (some 0))
    (hch : List.Chain' chainRel lines)
    (hlast : lines.getLast?.map RawLine.end_ms = some (some 9000)) :
    scaleSubtitleLinesToAudio lines 10000
        = lines.map (fun l =>
            { start_ms := roundScaled (10000 / 9000) l.start_ms,
              end_ms := roundScaled (10000 / 9000) l.end_ms,
              text := l.text }) ∧
      (scaleSubtitleLinesToAudio lines 10000).getLast?.map RawLine.end_ms
        = some (some 10000) := by
  obtain ⟨last, hl, hle⟩ : ∃ last, lines.getLast? = some last ∧ last.end_ms = some 9000 := by
    match he : lines.getLast? with
    | none => rw [he] at hlast; simp at hlast
    | some x => rw [he] at hlast; exact ⟨x, rfl, by simpa using hlast⟩
  obtain ⟨hd, hhd, hhs⟩ : ∃ hd, lines.head? = some hd ∧ hd.start_ms = some 0 := by
    match hh : lines.head? with
    | none => rw [hh] at h0; simp at h0
    | some x => rw [hh] at h0; exact ⟨x, rfl, by simpa using h0⟩
  have hfcast : (((10000 : ℤ) : ℚ) / 9000) = 10000 / 9000 := by norm_num
  have heq : scaleSubtitleLinesToAudio lines 10000
      = setLastEndQ ((10000 : ℤ) : ℚ) (forceStarts (lines.map (fun l =>
          { start_ms := roundScaled (10000 / 9000) l.start_ms,
            end_ms := roundScaled (10000 / 9000) l.end_ms,
            text := l.text }))) := by
    simp only [scaleSubtitleLinesToAudio, hl, hle]
    rw [if_neg (by norm_num), if_neg (by norm_num [abs_le]), hfcast]
  have hmh : (lines.map (fun l =>
      { start_ms := roundScaled (10000 / 9000) l.start_ms,
        end_ms := roundScaled (10000 / 9000) l.end_ms,
        text := l.text : RawLine })).head?.map RawLine.start_ms = some (some 0) := by
    rw [List.head?_map, hhd]
    show some (roundScaled (10000 / 9000) hd.start_ms) = some (some 0)
    rw [hhs]
    show some (some ((jsRound (0 * (10000 / 9000)) : ℤ) : ℚ)) = some (some 0)
    norm_num [jsRound]
  have hmch : List.Chain' chainRel (lines.map (fun l =>
      { start_ms := roundScaled (10000 / 9000) l.start_ms,
        end_ms := roundScaled (10000 / 9000) l.end_ms,
        text := l.text : RawLine })) := by
    refine List.chain'_map_of_chain' _ ?_ hch
    intro a b hab
    show (roundScaled (10000 / 9000) b.start_ms) = (roundScaled (10000 / 9000) a.end_ms)
    rw [hab]
  have hml : (lines.map (fun l =>
      { start_ms := roundScaled (10000 / 9000) l.start_ms,
        end_ms := roundScaled (10000 / 9000) l.end_ms,
        text := l.text : RawLine })).getLast?.map RawLine.end_ms = some (some 10000) := by
    rw [List.getLast?_map, hl]
    have hr : roundScaled (10000 / 9000) (some 9000) = some 10000 := by
      simp only [roundScaled, Option.map_some]
      norm_num [jsRound]
    simp [hle, hr]
  have hforce := forceStarts_eq _ hmh hmch
  have hset : setLastEndQ ((10000 : ℤ) : ℚ) (lines.map (fun l =>
      { start_ms := roundScaled (10000 / 9000) l.start_ms,
        end_ms := roundScaled (10000 / 9000) l.end_ms,
        text := l.text : RawLine })) = lines.map (fun l =>
      { start_ms := roundScaled (10000 / 9000) l.start_ms,
        end_ms := roundScaled (10000 / 9000) l.end_ms,
        text := l.text : RawLine }) := by
    apply setLastEndQ_eq_self
    intro x hx
    rw [hx] at hml
    have : x.end_ms = some 10000 := by simpa using hml
    rw [this]
    norm_num
  constructor
  · rw [heq, hforce, hset]
  · rw [heq, hforce, hset, hml]

/-- Witness for C2 at the concrete contiguous timeline
`[0,4000)·[4000,9000)` fitted to 10000 ms. -/
theorem C2_scale_9000_to_10000_witness :
    scaleSubtitleLinesToAudio
        [⟨some 0, some 4000, "a"⟩, ⟨some 4000, some 9000, "b"⟩] 10000
      = [⟨some 0, some 4444, "a"⟩, ⟨some 4444, some 10000, "b"⟩] := by
  have h := C2_scale_9000_to_10000
    [⟨some 0, some 4000, "a"⟩, ⟨some 4000, some 9000, "b"⟩]
    rfl
    (List.chain'_cons.mpr ⟨rfl, List.chain'_singleton _⟩)
    rfl
  rw [h.1]
  simp only [List.map_cons, List.map_nil, roundScaled, Option.map_some]
  norm_num [jsRound]

/-- C10: If the last raw subtitle line's `end_ms` is not a finite number
strictly greater than 0 (`NaN`, here `none`, or a value `≤ 0`), the fitter
returns its input list completely unchanged — no scaling, no re-sequencing, no
pinning — so for such inputs (and a positive measured audio duration) the
fitted timeline's final `end_ms` does not equal the audio duration. -/
theorem C10_degenerate_unchanged (lines : List RawLine) (last : RawLine)
    (audioMs : ℤ) (hl : lines.getLast? = some last)
    (hbad : last.end_ms = none ∨ ∃ q, last.end_ms = some q ∧ q ≤ 0)
    (hpos : 0 < audioMs) :
    scaleSubtitleLinesToAudio lines audioMs = lines ∧
      ∀ x, (scaleSubtitleLinesToAudio lines audioMs).getLast? = some x →
        x.end_ms ≠ some (audioMs : ℚ) := by
  have hunch : scaleSubtitleLinesToAudio lines audioMs = lines := by
    rcases hbad with hn | ⟨q, hq, hq0⟩
    · simp only [scaleSubtitleLinesToAudio, hl, hn]
    · simp only [scaleSubtitleLinesToAudio, hl, hq]
      rw [if_pos hq0]
  refine ⟨hunch, ?_⟩
  intro x hx
  rw [hunch, hl] at hx
  obtain rfl : last = x := by injection hx
  rcases hbad with hn | ⟨q, hq, hq0⟩
  · rw [hn]; exact fun h => Option.noConfusion h
  · rw [hq]
    intro h
    have : q = (audioMs : ℚ) := by injection h
    rw [this] at hq0
    have : (0 : ℚ) < (audioMs : ℚ) := by exact_mod_cast hpos
    linarith

/-- Witness for C10: a single line whose `end_ms` is 0 is returned unchanged
and its final end differs from the 5000 ms audio duration. -/
theorem C10_degenerate_unchanged_witness :
    scaleSubtitleLinesToAudio [⟨some 0, some 0, "a"⟩] 5000
        = [⟨some 0, some 0, "a"⟩] ∧
      ∀ x, (scaleSubtitleLinesToAudio [⟨some 0, some 0, "a"⟩] 5000).getLast? = some x →
        x.end_ms ≠ some ((5000 : ℤ) : ℚ) :=
  C10_degenerate_unchanged [⟨some 0, some 0, "a"⟩] ⟨some 0, some 0, "a"⟩ 5000
    (by decide) (Or.inr ⟨0, rfl, le_refl 0⟩) (by norm_num)

/-! ### The server.js subtitle pipeline (claim C1)

`src/server.js` (cached variant), `/render` subtitle pipeline:
```
let lines = normalizeSubtitleLines(rawLines);
lines = enforceConsecutiveWithClamp(lines, 650, 2200);
lines = proportionalFitToTarget(lines, subsTargetMs);
lines = enforceConsecutiveWithClamp(lines, 650, 2200);
if (lines.length) lines[lines.length - 1].end_ms = subsTargetMs;
```
with `subsTargetMs = audioMs`.  A normalized line has integer millisecond
bounds. -/

structure SubLine where
  start_ms : ℤ
  end_ms : ℤ
  text : String
deriving DecidableEq

/-- The filter of `normalizeSubtitleLines`: keep entries whose `start_ms` and
`end_ms` are numbers and whose `text` is truthy. -/
def normKeep (l : RawLine) : Bool :=
  l.start_ms.isSome && l.end_ms.isSome && decide (l.text ≠ "")

/-- The map of `normalizeSubtitleLines`:
`{ start_ms: Math.max(0, Math.floor(s)), end_ms: Math.max(0, Math.floor(e)) }`. -/
def normMap (l : RawLine) : SubLine :=
  ⟨max 0 (jsFloor (l.start_ms.getD 0)), max 0 (jsFloor (l.end_ms.getD 0)), l.text⟩

/-- Stable insertion step for `.sort((a, b) => a.start_ms - b.start_ms)`. -/
def insertSorted (a : SubLine) : List SubLine → List SubLine
  | [] => [a]
  | b :: t => if b.start_ms < a.start_ms then b :: insertSorted a t else a :: b :: t

/-- `Array.prototype.sort` with the comparator `a.start_ms - b.start_ms` is a
stable ascending sort; modelled extensionally as stable insertion sort. -/
def sortByStart : List SubLine → List SubLine
  | [] => []
  | a :: t => insertSorted a (sortByStart t)

/-- The overlap-removing fold of `normalizeSubtitleLines`:
`start = max(start, prevEnd); end = max(end, start + 200)`. -/
def normSeq (prevEnd : ℤ) : List SubLine → List SubLine
  | [] => []
  | l :: ls =>
    let start := max l.start_ms prevEnd
    let e := max l.end_ms (start + 200)
    ⟨start, e, l.text⟩ :: normSeq e ls

/-- `normalizeSubtitleLines` of `src/server.js`. -/
def normalizeSubtitleLines (raw : List RawLine) : List SubLine :=
  normSeq 0 (sortByStart ((raw.filter normKeep).map normMap))

/-- The loop of `enforceConsecutiveWithClamp` carrying the cursor:
`dur = clamp(max(1, end - start), minDur, maxDur)`, line `[cursor, cursor+dur)`. -/
def enfGo (minDur maxDur cursor : ℤ) : List SubLine → List SubLine
  | [] => []
  | l :: ls =>
    let dur := clamp (max 1 (l.end_ms - l.start_ms)) minDur maxDur
    ⟨cursor, cursor + dur, l.text⟩ :: enfGo minDur maxDur (cursor + dur) ls

/-- `enforceConsecutiveWithClamp` of `src/server.js` (defaults 650/2200). -/
def enforceConsecutiveWithClamp (lines : List SubLine) (minDur maxDur : ℤ) : List SubLine :=
  enfGo minDur maxDur 0 lines

/-- `lines[lines.length - 1].end_ms = v`. -/
def setLastEnd (v : ℤ) : List SubLine → List SubLine
  | [] => []
  | [l] => [{ l with end_ms := v }]
  | l :: ls => l :: setLastEnd v ls

/-- `proportionalFitToTarget` of `src/server.js`: pin within the 350 ms
tolerance, otherwise scale by `targetMs / lastEnd` (`Math.floor`), re-clamp,
and pin the last end to the target. -/
def proportionalFitToTarget (lines : List SubLine) (targetMs : ℤ) : List SubLine :=
  match lines.getLast? with
  | none => []
  | some last =>
    if last.end_ms ≤ 0 then lines
    else if |targetMs - last.end_ms| ≤ 350 then setLastEnd targetMs lines
    else
      setLastEnd targetMs (enforceConsecutiveWithClamp (lines.map (fun l =>
        ⟨jsFloor ((l.start_ms : ℚ) * ((targetMs : ℚ) / (last.end_ms : ℚ))),
          jsFloor ((l.end_ms : ℚ) * ((targetMs : ℚ) / (last.end_ms : ℚ))),
          l.text⟩)) 650 2200)

/-- Line 780 of `src/server.js`: `if (lines.length) lines[last].end_ms = v`. -/
def pinLast (lines : List SubLine) (v : ℤ) : List SubLine :=
  if lines.isEmpty then lines else setLastEnd v lines

/-- The full `/render` subtitle pipeline of `src/server.js`. -/
def subtitlePipeline (raw : List RawLine) (audioMs : ℤ) : List SubLine :=
  pinLast
    (enforceConsecutiveWithClamp
      (proportionalFitToTarget
        (enforceConsecutiveWithClamp (normalizeSubtitleLines raw) 650 2200)
        audioMs)
      650 2200)
    audioMs

/-- Contiguity: each line starts where its predecessor ends. -/
def subChain (a b : SubLine) : Prop := b.start_ms = a.end_ms

/-- Sortedness of start times. -/
def subLe (a b : SubLine) : Prop := a.start_ms ≤ b.start_ms

theorem clamp_le_left (n lo hi : ℤ) : lo ≤ clamp n lo hi := le_max_left lo _

theorem clamp_le_right (n lo hi : ℤ) (h : lo ≤ hi) : clamp n lo hi ≤ hi :=
  max_le h (min_le_left hi n)

theorem enfGo_length (m M : ℤ) : ∀ (l : List SubLine) (c : ℤ),
    (enfGo m M c l).length = l.length := by
  intro l
  induction l with
  | nil => intro c; rfl
  | cons x ls ih =>
    intro c
    show (⟨c, c + _, x.text⟩ :: enfGo m M _ ls : List SubLine).length = _
    simp [ih]

theorem enfGo_head_start (m M : ℤ) (l : List SubLine) (c : ℤ) (b : SubLine)
    (h : (enfGo m M c l).head? = some b) : b.start_ms = c := by
  match l with
  | [] => exact absurd h (by simp [enfGo])
  | x :: ls =>
    injection h with hv
    rw [← hv]

theorem enfGo_chain (m M : ℤ) : ∀ (l : List SubLine) (c : ℤ),
    List.Chain' subChain (enfGo m M c l) := by
  intro l
  induction l with
  | nil => intro c; exact List.chain'_nil
  | cons x ls ih =>
    intro c
    show List.Chain' subChain (⟨c, c + _, x.text⟩ :: enfGo m M _ ls)
    refine List.chain'_cons'.mpr ⟨?_, ih _⟩
    intro b hb
    show b.start_ms = _
    exact enfGo_head_start m M ls _ b hb

theorem enfGo_chain_le (m M : ℤ) (hm : 0 < m) : ∀ (l : List SubLine) (c : ℤ),
    List.Chain' subLe (enfGo m M c l) := by
  intro l
  induction l with
  | nil => intro c; exact List.chain'_nil
  | cons x ls ih =>
    intro c
    show List.Chain' subLe (⟨c, c + _, x.text⟩ :: enfGo m M _ ls)
    refine List.chain'_cons'.mpr ⟨?_, ih _⟩
    intro b hb
    show (⟨c, _, x.text⟩ : SubLine).start_ms ≤ b.start_ms
    rw [enfGo_head_start m M ls _ b hb]
    have := clamp_le_left (max 1 (x.end_ms - x.start_ms)) m M
    show c ≤ c + _
    omega

theorem enfGo_mem_dur (m M : ℤ) (hmM : m ≤ M) : ∀ (l : List SubLine) (c : ℤ)
    (x : SubLine), x ∈ enfGo m M c l →
    m ≤ x.end_ms - x.start_ms ∧ x.end_ms - x.start_ms ≤ M := by
  intro l
  induction l with
  | nil => intro c x hx; exact absurd hx (by simp [enfGo])
  | cons y ls ih =>
    intro c x hx
    rcases List.mem_cons.mp hx with h1 | h1
    · subst h1
      constructor
      · have := clamp_le_left (max 1 (y.end_ms - y.start_ms)) m M
        show m ≤ c + _ - c
        omega
      · have := clamp_le_right (max 1 (y.end_ms - y.start_ms)) m M hmM
        show c + _ - c ≤ M
        omega
    · exact ih _ x h1

theorem setLastEnd_length (v : ℤ) : ∀ l : List SubLine,
    (setLastEnd v l).length = l.length := by
  intro l
  induction l with
  | nil => rfl
  | cons a t ih =>
    match t with
    | [] => rfl
    | b :: t' =>
      show (a :: setLastEnd v (b :: t')).length = _
      simp only [List.length_cons, ih]

theorem setLastEnd_dropLast (v : ℤ) : ∀ l : List SubLine,
    (setLastEnd v l).dropLast = l.dropLast := by
  intro l
  induction l with
  | nil => rfl
  | cons a t ih =>
    match t with
    | [] => rfl
    | b :: t' =>
      show (a :: setLastEnd v (b :: t')).dropLast = (a :: b :: t').dropLast
      match ht : setLastEnd v (b :: t') with
      | [] => exact absurd ht (by cases t' <;> simp [setLastEnd])
      | c :: u =>
        rw [List.dropLast_cons₂, List.dropLast_cons₂, ← ht, ih]

theorem setLastEnd_head_start (v : ℤ) (l : List SubLine) :
    (setLastEnd v l).head?.map SubLine.start_ms = l.head?.map SubLine.start_ms := by
  match l with
  | [] => rfl
  | [a] => rfl
  | a :: b :: t => rfl

theorem setLastEnd_getLast (v : ℤ) : ∀ (l : List SubLine) (x : SubLine),
    l.getLast? = some x →
    (setLastEnd v l).getLast? = some { x with end_ms := v } := by
  intro l
  induction l with
  | nil => intro x hx; exact absurd hx (by simp)
  | cons a t ih =>
    intro x hx
    match t with
    | [] =>
      have : a = x := by simpa using hx
      subst this
      rfl
    | b :: t' =>
      rw [List.getLast?_cons_cons] at hx
      show (a :: setLastEnd v (b :: t')).getLast? = _
      have hrec := ih x hx
      match ht : setLastEnd v (b :: t') with
      | [] => exact absurd ht (by cases t' <;> simp [setLastEnd])
      | c :: u =>
        rw [List.getLast?_cons_cons]
        rw [ht] at hrec
        exact hrec

theorem setLastEnd_chain_of (R : SubLine → SubLine → Prop)
    (hR : ∀ a b v, R a b → R a { b with end_ms := v }) (v : ℤ) :
    ∀ l : List SubLine, List.Chain' R l → List.Chain' R (setLastEnd v l) := by
  intro l
  induction l with
  | nil => intro _; exact List.chain'_nil
  | cons a t ih =>
    intro hch
    match t with
    | [] => exact List.chain'_singleton _
    | b :: t' =>
      show List.Chain' R (a :: setLastEnd v (b :: t'))
      refine List.chain'_cons'.mpr ⟨?_, ih (List.Chain'.tail hch)⟩
      intro c hc
      have hab : R a b := (List.chain'_cons.mp hch).1
      match t' with
      | [] =>
        have hcb : { b with end_ms := v } = c := by simpa [setLastEnd] using hc
        rw [← hcb]
        exact hR a b v hab
      | d :: t'' =>
        have hcb : b = c := by simpa [setLastEnd] using hc
        rw [← hcb]
        exact hab

theorem fit_length (lines : List SubLine) (t : ℤ) :
    (proportionalFitToTarget lines t).length = lines.length := by
  match hl : lines.getLast? with
  | none =>
    have : lines = [] := List.getLast?_eq_none_iff.mp hl
    subst this
    rfl
  | some last =>
    simp only [proportionalFitToTarget, hl]
    by_cases h1 : last.end_ms ≤ 0
    · rw [if_pos h1]
    · rw [if_neg h1]
      by_cases h2 : |t - last.end_ms| ≤ 350
      · rw [if_pos h2, setLastEnd_length]
      · rw [if_neg h2, setLastEnd_length, enforceConsecutiveWithClamp,
          enfGo_length, List.length_map]

/-- C1 counterexample: with the single kept line `[0,2000) [2000,4200)` and a
measured audio duration of 4550 ms (within the 350 ms pin tolerance), the
pipeline pins the final end to 4550 after the last clamping pass, leaving the
last line with duration 2550 ∉ [650, 2200] — the claimed per-line duration
bound fails. -/
theorem C1_counterexample :
    subtitlePipeline
        [⟨some 0, some 2000, "a"⟩, ⟨some 2000, some 4200, "b"⟩] 4550
      = [⟨0, 2000, "a"⟩, ⟨2000, 4550, "b"⟩] ∧
      ¬((4550 : ℤ) - 2000 ≤ 2200) := by
  constructor
  · have hfm : (([⟨some 0, some 2000, "a"⟩, ⟨some 2000, some 4200, "b"⟩] :
          List RawLine).filter normKeep).map normMap
        = [⟨0, 2000, "a"⟩, ⟨2000, 4200, "b"⟩] := by
      norm_num +decide [normKeep, normMap, jsFloor, List.filter]
    have hnorm : normalizeSubtitleLines
        [⟨some 0, some 2000, "a"⟩, ⟨some 2000, some 4200, "b"⟩]
        = [⟨0, 2000, "a"⟩, ⟨2000, 4200, "b"⟩] := by
      rw [normalizeSubtitleLines, hfm]
      decide
    unfold subtitlePipeline
    rw [hnorm]
    decide
  · decide

/-- C1 (amended): For every subtitle input with at least one kept line, the
fitted output timeline has as many lines as were kept, is contiguous (each
line starts where the previous one ends), has non-decreasing start times,
starts at 0, and its last line ends exactly at `audio_ms`; every line EXCEPT
THE LAST has duration within `[650, 2200]`.  (The final pin of the last end to
`audio_ms` can push the last line's duration outside the bounds, so the
original per-line bound claim holds only for the non-final lines.) -/
theorem C1_fit_invariants (raw : List RawLine) (audioMs : ℤ)
    (hne : normalizeSubtitleLines raw ≠ []) :
    (subtitlePipeline raw audioMs).length = (normalizeSubtitleLines raw).length ∧
    (subtitlePipeline raw audioMs).head?.map SubLine.start_ms = some 0 ∧
    List.Chain' subChain (subtitlePipeline raw audioMs) ∧
    List.Chain' subLe (subtitlePipeline raw audioMs) ∧
    (subtitlePipeline raw audioMs).getLast?.map SubLine.end_ms = some audioMs ∧
    (∀ x ∈ (subtitlePipeline raw audioMs).dropLast,
      650 ≤ x.end_ms - x.start_ms ∧ x.end_ms - x.start_ms ≤ 2200) := by
  have hl2ne : enforceConsecutiveWithClamp (normalizeSubtitleLines raw) 650 2200 ≠ [] := by
    intro h
    apply hne
    have := enfGo_length 650 2200 (normalizeSubtitleLines raw) 0
    rw [enforceConsecutiveWithClamp] at h
    rw [h] at this
    exact List.eq_nil_of_length_eq_zero this.symm
  have hl3ne : proportionalFitToTarget
      (enforceConsecutiveWithClamp (normalizeSubtitleLines raw) 650 2200) audioMs ≠ [] := by
    intro h
    apply hl2ne
    have := fit_length (enforceConsecutiveWithClamp (normalizeSubtitleLines raw) 650 2200) audioMs
    rw [h] at this
    exact List.eq_nil_of_length_eq_zero this.symm
  have hl4ne : enforceConsecutiveWithClamp (proportionalFitToTarget
      (enforceConsecutiveWithClamp (normalizeSubtitleLines raw) 650 2200) audioMs) 650 2200 ≠ [] := by
    intro h
    apply hl3ne
    have := enfGo_length 650 2200 (proportionalFitToTarget
      (enforceConsecutiveWithClamp (normalizeSubtitleLines raw) 650 2200) audioMs) 0
    rw [enforceConsecutiveWithClamp] at h
    rw [h] at this
    exact List.eq_nil_of_length_eq_zero this.symm
  have hpin : subtitlePipeline raw audioMs
      = setLastEnd audioMs (enforceConsecutiveWithClamp (proportionalFitToTarget
          (enforceConsecutiveWithClamp (normalizeSubtitleLines raw) 650 2200) audioMs) 650 2200) := by
    rw [subtitlePipeline, pinLast, if_neg (by
      intro h
      exact hl4ne (List.isEmpty_iff.mp h))]
  obtain ⟨lst, hlst⟩ : ∃ x, (enforceConsecutiveWithClamp (proportionalFitToTarget
      (enforceConsecutiveWithClamp (normalizeSubtitleLines raw) 650 2200) audioMs)
      650 2200).getLast? = some x := by
    match h : (enforceConsecutiveWithClamp _ _ _).getLast? with
    | none =>
      exfalso
      apply hl4ne
      exact List.getLast?_eq_none_iff.mp h
    | some x => exact ⟨x, rfl⟩
  refine ⟨?_, ?_, ?_, ?_, ?_, ?_⟩
  · rw [hpin, setLastEnd_length, enforceConsecutiveWithClamp, enfGo_length,
      fit_length, enforceConsecutiveWithClamp, enfGo_length]
  · rw [hpin, setLastEnd_head_start]
    match hh : (enforceConsecutiveWithClamp (proportionalFitToTarget
        (enforceConsecutiveWithClamp (normalizeSubtitleLines raw) 650 2200) audioMs)
        650 2200).head? with
    | none =>
      exfalso
      exact hl4ne (List.head?_eq_none_iff.mp hh)
    | some b =>
      have := enfGo_head_start 650 2200 (proportionalFitToTarget
        (enforceConsecutiveWithClamp (normalizeSubtitleLines raw) 650 2200) audioMs) 0 b hh
      simp [this]
  · rw [hpin]
    exact setLastEnd_chain_of subChain (fun a b v hab => hab) audioMs _
      (enfGo_chain 650 2200 _ 0)
  · rw [hpin]
    exact setLastEnd_chain_of subLe (fun a b v hab => hab) audioMs _
      (enfGo_chain_le 650 2200 (by norm_num) _ 0)
  · rw [hpin, setLastEnd_getLast audioMs _ lst hlst]
    rfl
  · rw [hpin, setLastEnd_dropLast]
    intro x hx
    exact enfGo_mem_dur 650 2200 (by norm_num) _ 0 x
      (List.dropLast_subset _ hx)

/-- Witness for C1 (amended) at the concrete input of the counterexample. -/
theorem C1_fit_invariants_witness :
    normalizeSubtitleLines [⟨some 0, some 2000, "a"⟩, ⟨some 2000, some 4200, "b"⟩] ≠ [] ∧
      (subtitlePipeline [⟨some 0, some 2000, "a"⟩, ⟨some 2000, some 4200, "b"⟩] 4550).getLast?.map
        SubLine.end_ms = some 4550 := by
  have hne : normalizeSubtitleLines
      [⟨some 0, some 2000, "a"⟩, ⟨some 2000, some 4200, "b"⟩] ≠ [] := by
    have hfm : (([⟨some 0, some 2000, "a"⟩, ⟨some 2000, some 4200, "b"⟩] :
          List RawLine).filter normKeep).map normMap
        = [⟨0, 2000, "a"⟩, ⟨2000, 4200, "b"⟩] := by
      norm_num +decide [normKeep, normMap, jsFloor, List.filter]
    have hnorm : normalizeSubtitleLines
        [⟨some 0, some 2000, "a"⟩, ⟨some 2000, some 4200, "b"⟩]
        = [⟨0, 2000, "a"⟩, ⟨2000, 4200, "b"⟩] := by
      rw [normalizeSubtitleLines, hfm]
      decide
    rw [hnorm]
    decide
  exact ⟨hne, (C1_fit_invariants _ 4550 hne).2.2.2.2.1⟩

/-! ### Asset cache (claim C3)

`src/unnamed/part_000`, `downloadToCache(url)` / `findExistingCached(base)`:
the cache key is `sha1(url)`, the lookup probes the extensions
`.png .jpg .jpeg .webp .bin` and the bare base path, and on a miss the
extension of the written file comes from the response content type, then the
URL path extension, then `.bin`.  External effects (hashing, the HTTP
response's content type, URL parsing, fetch success) are parameters of the
deterministic environment; the filesystem is the list of existing paths; the
result carries the returned path, the new filesystem and the number of network
fetches performed. -/

structure CacheEnv where
  sha1 : String → String
  contentType : String → String
  urlPathExt : String → String
  fetchOk : String → Bool

/-- Prefix test for the substring scan (needle, haystack). -/
def leadsWith : List Char → List Char → Bool
  | [], _ => true
  | _ :: _, [] => false
  | a :: as, b :: bt => a = b && leadsWith as bt

/-- Substring scan over the haystack. -/
def containsSeq (needle : List Char) : List Char → Bool
  | [] => needle.isEmpty
  | c :: t => leadsWith needle (c :: t) || containsSeq needle t

/-- JS `String.prototype.includes`. -/
def jsIncludes (s sub : String) : Bool := containsSeq sub.toList s.toList

/-- `CACHE_DIR` of `part_000` (`/tmp/mxcache`) with the path separator. -/
def CACHE_PRE : String := "/tmp/mxcache/"

/-- The extension candidates probed by `findExistingCached`. -/
def cachedExts : List String := [".png", ".jpg", ".jpeg", ".webp", ".bin"]

/-- `findExistingCached(filePathBase)` of `part_000`. -/
def findExistingCached (fs : List String) (base : String) : Option String :=
  match cachedExts.find? (fun e => (base ++ e) ∈ fs) with
  | some e => some (base ++ e)
  | none => if base ∈ fs then some base else none

/-- The extension chosen on a cache miss: response content type first
(`png`/`jpeg`/`jpg`/`webp`), then the URL path extension, then `.bin`. -/
def extFor (env : CacheEnv) (url : String) : String :=
  let ct := env.contentType url
  if jsIncludes ct "png" then ".png"
  else if jsIncludes ct "jpeg" || jsIncludes ct "jpg" then ".jpg"
  else if jsIncludes ct "webp" then ".webp"
  else if env.urlPathExt url = "" then ".bin" else env.urlPathExt url

/-- `downloadToCache(url)` of `part_000`: `none` models the thrown
`Failed to download asset` error; on success the triple is the returned local
path, the updated filesystem and the number of fetches performed. -/
def downloadToCache (env : CacheEnv) (fs : List String) (url : String) :
    Option (String × List String × ℕ) :=
  let base := CACHE_PRE ++ env.sha1 url
  match findExistingCached fs base with
  | some p => some (p, fs, 0)
  | none =>
    if env.fetchOk url then
      let out := base ++ extFor env url
      some (out, out :: fs, 1)
    else none

theorem string_append_left_cancel (a b c : String) (h : a ++ b = a ++ c) : b = c := by
  have := congrArg String.data h
  simp [String.data_append] at this
  exact String.ext this

theorem string_ne_append_of_ne_empty (a e : String) (he : e ≠ "") : a ≠ a ++ e := by
  intro h
  have hlen := congrArg String.length h
  rw [String.length_append] at hlen
  have h0 : e.length = 0 := by omega
  exact he (String.ext (by simpa [String.length] using List.eq_nil_of_length_eq_zero h0))

theorem extFor_ne_empty (env : CacheEnv) (url : String) : extFor env url ≠ "" := by
  unfold extFor
  by_cases h1 : jsIncludes (env.contentType url) "png"
  · simp [h1]
  · by_cases h2 : jsIncludes (env.contentType url) "jpeg" || jsIncludes (env.contentType url) "jpg"
    · simp [h1, h2]
    · by_cases h3 : jsIncludes (env.contentType url) "webp"
      · simp [h1, h2, h3]
      · by_cases h4 : env.urlPathExt url = ""
        · simp [h1, h2, h3, h4]
        · simp [h1, h2, h3, h4]

theorem find?_unique {α : Type} (p : α → Bool) (x : α) :
    ∀ l : List α, (∀ e ∈ l, p e = true ↔ e = x) → x ∈ l → l.find? p = some x := by
  intro l
  induction l with
  | nil => intro _ hx; exact absurd hx (List.not_mem_nil x)
  | cons a t ih =>
    intro hp hx
    by_cases ha : p a
    · rw [List.find?_cons_of_pos _ ha]
      have : a = x := (hp a (List.mem_cons_self a t)).mp ha
      rw [this]
    · rw [List.find?_cons_of_neg _ ha]
      have hax : a ≠ x := fun h => ha (((hp a (List.mem_cons_self a t)).mpr h))
      have hxt : x ∈ t := by
        rcases List.mem_cons.mp hx with h | h
        · exact absurd h.symm hax
        · exact h
      exact ih (fun e he => hp e (List.mem_cons_of_mem a he)) hxt

/-- C3 counterexample: the claim "resolving the same URL twice issues at most
one network fetch in total" fails for a URL whose stored extension is outside
the probe list — content type `image/gif` and URL path extension `.gif` store
`<base>.gif`, which `findExistingCached` never probes, so the second resolve
fetches again (two fetches in total, though both calls return the same path). -/
theorem C3_counterexample :
    downloadToCache ⟨fun _ => "k", fun _ => "image/gif", fun _ => ".gif", fun _ => true⟩
        [] "https://cdn.example/p.gif"
        = some ("/tmp/mxcache/k.gif", ["/tmp/mxcache/k.gif"], 1) ∧
      downloadToCache ⟨fun _ => "k", fun _ => "image/gif", fun _ => ".gif", fun _ => true⟩
        ["/tmp/mxcache/k.gif"] "https://cdn.example/p.gif"
        = some ("/tmp/mxcache/k.gif", ["/tmp/mxcache/k.gif", "/tmp/mxcache/k.gif"], 1) ∧
      ¬(1 + 1 ≤ 1) := by
  refine ⟨?_, ?_, by decide⟩
  · decide
  · decide

/-- C3 (amended): two sequential resolves of the same URL always return the
same local file path, and perform at most one network fetch in total provided
the extension chosen for the stored file is one of the probed cache
extensions (`.png .jpg .jpeg .webp .bin`); an unrecognized URL-derived
extension (for example `.gif`) makes the second resolve fetch again. -/
theorem C3_cache_idempotent (env : CacheEnv) (fs : List String) (url : String)
    (p1 p2 : String) (fs1 fs2 : List String) (n1 n2 : ℕ)
    (h1 : downloadToCache env fs url = some (p1, fs1, n1))
    (h2 : downloadToCache env fs1 url = some (p2, fs2, n2)) :
    p1 = p2 ∧ (extFor env url ∈ cachedExts → n1 + n2 ≤ 1) := by
  rw [downloadToCache] at h1 h2
  match hf : findExistingCached fs (CACHE_PRE ++ env.sha1 url) with
  | some p =>
    rw [hf] at h1
    obtain ⟨hp1, hfs1, hn1⟩ : p1 = p ∧ fs1 = fs ∧ n1 = 0 := by
      have := Option.some.inj h1
      exact ⟨(Prod.mk.injEq _ _ _ _ ▸ this).1.symm, by
        have h' := (Prod.mk.injEq _ _ _ _ ▸ this).2
        exact ⟨(Prod.mk.injEq _ _ _ _ ▸ h').1.symm, (Prod.mk.injEq _ _ _ _ ▸ h').2.symm⟩⟩
    rw [hfs1, hf] at h2
    obtain ⟨hp2, hn2⟩ : p2 = p ∧ n2 = 0 := by
      have := Option.some.inj h2
      exact ⟨(Prod.mk.injEq _ _ _ _ ▸ this).1.symm, by
        have h' := (Prod.mk.injEq _ _ _ _ ▸ this).2
        exact (Prod.mk.injEq _ _ _ _ ▸ h').2.symm⟩
    exact ⟨hp1.trans hp2.symm, fun _ => by omega⟩
  | none =>
    rw [hf] at h1
    by_cases hok : env.fetchOk url
    · rw [if_pos hok] at h1
      obtain ⟨hp1, hfs1, hn1⟩ :
          p1 = CACHE_PRE ++ env.sha1 url ++ extFor env url ∧
          fs1 = (CACHE_PRE ++ env.sha1 url ++ extFor env url) :: fs ∧ n1 = 1 := by
        have := Option.some.inj h1
        refine ⟨(Prod.mk.injEq _ _ _ _ ▸ this).1.symm, ?_, ?_⟩
        · have h' := (Prod.mk.injEq _ _ _ _ ▸ this).2
          exact (Prod.mk.injEq _ _ _ _ ▸ h').1.symm
        · have h' := (Prod.mk.injEq _ _ _ _ ▸ this).2
          exact (Prod.mk.injEq _ _ _ _ ▸ h').2.symm
      -- facts from the first miss
      have hmiss := hf
      rw [findExistingCached] at hmiss
      have hnone : cachedExts.find?
          (fun e => decide ((CACHE_PRE ++ env.sha1 url ++ e) ∈ fs)) = none := by
        match hfind : cachedExts.find?
            (fun e => decide ((CACHE_PRE ++ env.sha1 url ++ e) ∈ fs)) with
        | some e => rw [hfind] at hmiss; cases hmiss
        | none => rfl
      have hbase : (CACHE_PRE ++ env.sha1 url) ∉ fs := by
        rw [hnone] at hmiss
        by_cases hb : (CACHE_PRE ++ env.sha1 url) ∈ fs
        · rw [if_pos hb] at hmiss; cases hmiss
        · exact hb
      have hnotin : ∀ e ∈ cachedExts, (CACHE_PRE ++ env.sha1 url ++ e) ∉ fs := by
        intro e he hin
        have := List.find?_eq_none.mp hnone e he
        simp [hin] at this
      -- membership in fs1 characterised
      have hmem1 : ∀ e, ((CACHE_PRE ++ env.sha1 url ++ e) ∈ fs1)
          ↔ (e = extFor env url ∨ (CACHE_PRE ++ env.sha1 url ++ e) ∈ fs) := by
        intro e
        rw [hfs1]
        constructor
        · intro hm
          rcases List.mem_cons.mp hm with hm | hm
          · exact Or.inl (string_append_left_cancel _ _ _ hm)
          · exact Or.inr hm
        · intro hm
          rcases hm with hm | hm
          · rw [hm]; exact List.mem_cons_self _ _
          · exact List.mem_cons_of_mem _ hm
      by_cases hrec : extFor env url ∈ cachedExts
      · -- second lookup hits the stored file: no second fetch
        have hfind2 : cachedExts.find?
            (fun e => decide ((CACHE_PRE ++ env.sha1 url ++ e) ∈ fs1))
            = some (extFor env url) := by
          apply find?_unique
          · intro e he
            constructor
            · intro hp
              rcases (hmem1 e).mp (of_decide_eq_true hp) with h | h
              · exact h
              · exact absurd h (hnotin e he)
            · intro h
              exact decide_eq_true ((hmem1 e).mpr (Or.inl h))
          · exact hrec
        rw [findExistingCached, hfind2] at h2
        obtain ⟨hp2, hn2⟩ : p2 = CACHE_PRE ++ env.sha1 url ++ extFor env url ∧ n2 = 0 := by
          have := Option.some.inj h2
          exact ⟨(Prod.mk.injEq _ _ _ _ ▸ this).1.symm, by
            have h' := (Prod.mk.injEq _ _ _ _ ▸ this).2
            exact (Prod.mk.injEq _ _ _ _ ▸ h').2.symm⟩
        exact ⟨hp1.trans hp2.symm, fun _ => by omega⟩
      · -- the stored extension is never probed: full re-download
        have hfind2 : cachedExts.find?
            (fun e => decide ((CACHE_PRE ++ env.sha1 url ++ e) ∈ fs1)) = none := by
          rw [List.find?_eq_none]
          intro e he hp
          rcases (hmem1 e).mp (of_decide_eq_true hp) with h | h
          · exact hrec (h ▸ he)
          · exact hnotin e he h
        have hbase1 : (CACHE_PRE ++ env.sha1 url) ∉ fs1 := by
          rw [hfs1]
          intro hm
          rcases List.mem_cons.mp hm with hm | hm
          · exact string_ne_append_of_ne_empty _ _ (extFor_ne_empty env url) hm
          · exact hbase hm
        rw [findExistingCached, hfind2, if_neg hbase1, if_pos hok] at h2
        obtain ⟨hp2, hn2⟩ : p2 = CACHE_PRE ++ env.sha1 url ++ extFor env url ∧ n2 = 1 := by
          have := Option.some.inj h2
          exact ⟨(Prod.mk.injEq _ _ _ _ ▸ this).1.symm, by
            have h' := (Prod.mk.injEq _ _ _ _ ▸ this).2
            exact (Prod.mk.injEq _ _ _ _ ▸ h').2.symm⟩
        exact ⟨hp1.trans hp2.symm, fun hco => absurd hco hrec⟩
    · rw [if_neg hok] at h1
      cases h1

/-- Witness for C3 (amended): a PNG-typed URL is fetched once and the second
resolve is a pure cache hit on the same path. -/
theorem C3_cache_idempotent_witness :
    downloadToCache ⟨fun _ => "k", fun _ => "image/png", fun _ => "", fun _ => true⟩
        [] "https://cdn.example/bg"
        = some ("/tmp/mxcache/k.png", ["/tmp/mxcache/k.png"], 1) ∧
      downloadToCache ⟨fun _ => "k", fun _ => "image/png", fun _ => "", fun _ => true⟩
        ["/tmp/mxcache/k.png"] "https://cdn.example/bg"
        = some ("/tmp/mxcache/k.png", ["/tmp/mxcache/k.png"], 0) ∧
      "/tmp/mxcache/k.png" = "/tmp/mxcache/k.png" ∧ 1 + 0 ≤ 1 := by
  have h1 : downloadToCache ⟨fun _ => "k", fun _ => "image/png", fun _ => "", fun _ => true⟩
      [] "https://cdn.example/bg"
      = some ("/tmp/mxcache/k.png", ["/tmp/mxcache/k.png"], 1) := by decide
  have h2 : downloadToCache ⟨fun _ => "k", fun _ => "image/png", fun _ => "", fun _ => true⟩
      ["/tmp/mxcache/k.png"] "https://cdn.example/bg"
      = some ("/tmp/mxcache/k.png", ["/tmp/mxcache/k.png"], 0) := by decide
  have h := C3_cache_idempotent _ _ _ _ _ _ _ _ _ h1 h2
  exact ⟨h1, h2, h.1, h.2 (by decide)⟩

/-! ### Process supervisor and /render handler (claims C4, C5, C6)

`src/unnamed/part_000`, `runFfmpegWithProgress` and the `/render` route.
The event-driven supervisor is modelled as a pure function of the subprocess
close time (`none` = the process never closes on its own), its exit code, and
the accumulated progress state: the promise settles at the earliest of the
close event and the two timers; the soft timer is registered before the hard
timer, so when both are due the soft one fires first; each timer sets
`killed` and sends `SIGKILL`.  The handler is a pure function of the busy
flag, the request, and a record of the external world, returning the JSON
response, the busy flag after the `finally` block, and the ordered list of
side effects (multipart upload staging write, cache writes, prober spawn,
work-dir subtitle-file write, encoder spawn). -/

/-- The `last` record accumulated from `-progress` key=value lines. -/
structure Snapshot where
  out_time_ms : ℤ
  out_time : String
  speed : String
  fps : String
  frame : String
  progress : String
deriving DecidableEq

/-- A bounded progress sample pushed whenever a `progress=` line arrives. -/
structure Sample where
  t_ms : ℕ
  out_time_ms : ℤ
  speed : String
  fps : String
  frame : String
  progress : String
deriving DecidableEq

/-- The `e.code` values produced by `runFfmpegWithProgress`. -/
inductive FfCode
  | etimedout
  | hardTimeout
  | exitCode (c : ℤ)
deriving DecidableEq

/-- Settlement of the `runFfmpegWithProgress` promise; `killed` records
whether a timer sent `SIGKILL` to the subprocess. -/
inductive FfRes
  | ok (last : Snapshot) (samples : List Sample)
  | err (code : FfCode) (killed : Bool) (last : Snapshot) (samples : List Sample)
deriving DecidableEq

/-- `samples.slice(-20)`. -/
def takeLast (n : ℕ) (l : List Sample) : List Sample := l.drop (l.length - n)

/-- `runFfmpegWithProgress({args, timeoutMs, hardTimeoutMs})`: the promise
settles at the earliest event among subprocess close (at `closeAt`), the soft
timer (at `softMs`) and the hard timer (at `hardMs`); each timer checks the
shared `killed` flag, kills the subprocess, and rejects with its own code, so
the hard timer can only win when it expires strictly before the soft one
(ties go to the soft timer, which was registered first). -/
def runFfmpegModel (softMs hardMs : ℕ) (closeAt : Option ℕ) (closeCode : ℤ)
    (last : Snapshot) (samples : List Sample) : FfRes :=
  match closeAt with
  | some tc =>
    if tc < softMs ∧ tc < hardMs then
      if closeCode = 0 then .ok last (takeLast 20 samples)
      else .err (.exitCode closeCode) false last (takeLast 20 samples)
    else if softMs ≤ hardMs then .err .etimedout true last (takeLast 20 samples)
    else .err .hardTimeout true last (takeLast 20 samples)
  | none =>
    if softMs ≤ hardMs then .err .etimedout true last (takeLast 20 samples)
    else .err .hardTimeout true last (takeLast 20 samples)

/-- The JSON response of `/render` (status, `ok`, and the `debug.ffmpeg_*`
fields when present). -/
structure HResp where
  status : ℕ
  ok : Bool
  ffmpeg_last : Option Snapshot
  ffmpeg_samples : Option (List Sample)
deriving DecidableEq

/-- The `catch` handler of `/render`: `ETIMEDOUT` and `HARD_TIMEOUT` map to
504 carrying the last progress snapshot and recent samples, every other
subprocess failure maps to 500. -/
def ffErrResponse (code : FfCode) (last : Snapshot) (samples : List Sample) : HResp :=
  match code with
  | .etimedout => ⟨504, false, some last, some samples⟩
  | .hardTimeout => ⟨504, false, some last, some samples⟩
  | .exitCode _ => ⟨500, false, some last, some samples⟩

/-- The parse result of the `payload` text field: invalid JSON, or a parsed
document described by the facts `validatePayload` checks, in order: being an
object, finite `width/height/fps`, `assets.base_background_url` present,
`assets.end_card_url` present, `subtitles.lines` non-empty (plus the
`debug.disable_subtitles` flag). -/
inductive PayloadJson
  | invalid
  | valid (isObject specFinite hasBg hasEndCard linesNonEmpty disableSubs : Bool)
deriving DecidableEq

/-- A `/render` request: whether multer received the `audio` file, and the
`payload` text field (absent, or its parse result). -/
structure RReq where
  hasAudio : Bool
  payload : Option PayloadJson
deriving DecidableEq

/-- The outcome of `ffprobeDurationMs`: a duration, a generic failure
(non-zero exit or unusable output), or the 15 s probe timeout whose error
carries `code = "ETIMEDOUT"`. -/
inductive ProbeRes
  | ok (ms : ℤ)
  | fail
  | timeout
deriving DecidableEq

/-- Side effects of one `/render` request, in order of occurrence. -/
inductive Ev
  | uploadWrite
  | cacheWrite
  | probeSpawn
  | workWrite
  | ffmpegSpawn
deriving DecidableEq

/-- The external world one request observes. -/
structure World where
  bgCached : Bool
  bgOk : Bool
  ecCached : Bool
  ecOk : Bool
  probe : ProbeRes
  ffSoftMs : ℕ
  ffHardMs : ℕ
  ffCloseAt : Option ℕ
  ffCloseCode : ℤ
  ffLast : Snapshot
  ffSamples : List Sample
deriving DecidableEq

/-- One `downloadToCache` call inside the handler: a cache hit touches
nothing, a miss fetches and writes on success (`none` = thrown download
error, which performs no write). -/
def resolveAsset (cached ok : Bool) : Option (List Ev) :=
  if cached then some [] else if ok then some [Ev.cacheWrite] else none

/-- The `try` block of the `/render` handler, mirroring its statement order:
audio-file check, payload-presence check, JSON parse, `validatePayload`
(whose thrown `Error` carries no `code` and therefore lands in the generic
500 branch of the `catch`), the two asset downloads, the duration probe, the
subtitle-file write, and the encoder run. -/
def tryBody (req : RReq) (w : World) : HResp × List Ev :=
  if req.hasAudio = false then (⟨400, false, none, none⟩, [])
  else
    match req.payload with
    | none => (⟨400, false, none, none⟩, [])
    | some .invalid => (⟨400, false, none, none⟩, [])
    | some (.valid o s b e l _) =>
      if (o && s && b && e && l) = false then (⟨500, false, none, none⟩, [])
      else
        match resolveAsset w.bgCached w.bgOk with
        | none => (⟨500, false, none, none⟩, [])
        | some bgEvs =>
          match resolveAsset w.ecCached w.ecOk with
          | none => (⟨500, false, none, none⟩, bgEvs)
          | some ecEvs =>
            match w.probe with
            | .fail => (⟨500, false, none, none⟩, bgEvs ++ ecEvs ++ [Ev.probeSpawn])
            | .timeout => (⟨504, false, none, none⟩, bgEvs ++ ecEvs ++ [Ev.probeSpawn])
            | .ok _ =>
              match runFfmpegModel w.ffSoftMs w.ffHardMs w.ffCloseAt w.ffCloseCode
                  w.ffLast w.ffSamples with
              | .ok last samples =>
                (⟨200, true, some last, some samples⟩,
                  bgEvs ++ ecEvs ++ [Ev.probeSpawn, Ev.workWrite, Ev.ffmpegSpawn])
              | .err code _ last samples =>
                (ffErrResponse code last samples,
                  bgEvs ++ ecEvs ++ [Ev.probeSpawn, Ev.workWrite, Ev.ffmpegSpawn])

/-- The `/render` handler: multer stages the upload first, then the handler
rejects with 503 while `renderBusy` is set (leaving the flag to its holder),
and otherwise runs the `try` block with the `finally` clause clearing the
flag on every path. -/
def renderHandler (busy : Bool) (req : RReq) (w : World) : HResp × Bool × List Ev :=
  let uploadEvs := if req.hasAudio then [Ev.uploadWrite] else []
  if busy then (⟨503, false, none, none⟩, busy, uploadEvs)
  else
    let r := tryBody req w
    (r.1, false, uploadEvs ++ r.2)

/-- C4: The admission gate is the single two-state `renderBusy` flag with
capacity 1: a request arriving while another render holds the gate is
rejected immediately with HTTP 503 (no queueing) having performed no cache
write and spawned no subprocess, the flag stays with its holder; and on every
exit path of an admitted request — success, validation failure, timeout or
encoder failure, i.e. for every request and world — the `finally` block
returns the gate to Idle so a later request can be admitted. -/
theorem C4_admission_gate (req : RReq) (w : World) :
    ((renderHandler true req w).1.status = 503 ∧
      (renderHandler true req w).2.1 = true ∧
      Ev.ffmpegSpawn ∉ (renderHandler true req w).2.2 ∧
      Ev.probeSpawn ∉ (renderHandler true req w).2.2 ∧
      Ev.cacheWrite ∉ (renderHandler true req w).2.2) ∧
    (renderHandler false req w).2.1 = false := by
  constructor
  · refine ⟨rfl, rfl, ?_, ?_, ?_⟩ <;>
      · show _ ∉ (if req.hasAudio then [Ev.uploadWrite] else [])
        by_cases h : req.hasAudio <;> simp [h]
  · rfl

/-- C5: If the encoder runs past the soft timeout (it has not closed before
`softTimeoutMs` and the hard timeout is strictly larger), the subprocess is
killed and the request resolves with HTTP 504 whose body carries the last
parsed progress snapshot (`debug.ffmpeg_last` present) and the last 20
samples; the hard timer's distinct `HARD_TIMEOUT` code — the failsafe for the
case where the soft path did not settle first — also maps to HTTP 504. -/
theorem C5_soft_timeout (req : RReq) (w : World)
    (o s b e l d : Bool)
    (haud : req.hasAudio = true)
    (hp : req.payload = some (.valid o s b e l d))
    (hv : (o && s && b && e && l) = true)
    (hbg : w.bgCached = true ∨ w.bgOk = true)
    (hec : w.ecCached = true ∨ w.ecOk = true)
    (hprobe : ∃ ms, w.probe = .ok ms)
    (hsoft : w.ffSoftMs < w.ffHardMs)
    (hclose : ∀ tc, w.ffCloseAt = some tc → w.ffSoftMs ≤ tc) :
    runFfmpegModel w.ffSoftMs w.ffHardMs w.ffCloseAt w.ffCloseCode w.ffLast w.ffSamples
        = .err .etimedout true w.ffLast (takeLast 20 w.ffSamples) ∧
      (renderHandler false req w).1.status = 504 ∧
      (renderHandler false req w).1.ffmpeg_last = some w.ffLast ∧
      (renderHandler false req w).1.ffmpeg_samples = some (takeLast 20 w.ffSamples) ∧
      Ev.ffmpegSpawn ∈ (renderHandler false req w).2.2 ∧
      FfCode.hardTimeout ≠ FfCode.etimedout ∧
      (∀ last samples, (ffErrResponse .hardTimeout last samples).status = 504) := by
  have hrun : runFfmpegModel w.ffSoftMs w.ffHardMs w.ffCloseAt w.ffCloseCode
      w.ffLast w.ffSamples = .err .etimedout true w.ffLast (takeLast 20 w.ffSamples) := by
    match hc : w.ffCloseAt with
    | none =>
      rw [runFfmpegModel]
      rw [if_pos (le_of_lt hsoft)]
    | some tc =>
      have htc := hclose tc hc
      rw [runFfmpegModel]
      rw [if_neg (by omega), if_pos (le_of_lt hsoft)]
  obtain ⟨ms, hms⟩ := hprobe
  obtain ⟨bgEvs, hbgEvs⟩ : ∃ evs, resolveAsset w.bgCached w.bgOk = some evs := by
    unfold resolveAsset
    by_cases h2 : w.bgCached
    · exact ⟨[], by rw [if_pos h2]⟩
    · rcases hbg with h | h
      · exact absurd h h2
      · exact ⟨[Ev.cacheWrite], by rw [if_neg h2, if_pos h]⟩
  obtain ⟨ecEvs, hecEvs⟩ : ∃ evs, resolveAsset w.ecCached w.ecOk = some evs := by
    unfold resolveAsset
    by_cases h2 : w.ecCached
    · exact ⟨[], by rw [if_pos h2]⟩
    · rcases hec with h | h
      · exact absurd h h2
      · exact ⟨[Ev.cacheWrite], by rw [if_neg h2, if_pos h]⟩
  have hbody : tryBody req w
      = (⟨504, false, some w.ffLast, some (takeLast 20 w.ffSamples)⟩,
          bgEvs ++ ecEvs ++ [Ev.probeSpawn, Ev.workWrite, Ev.ffmpegSpawn]) := by
    rw [tryBody]
    rw [if_neg (by rw [haud]; decide)]
    simp only [hp]
    rw [if_neg (by rw [hv]; decide)]
    rw [hbgEvs, hecEvs, hms, hrun]
    rfl
  have hhand : renderHandler false req w
      = (⟨504, false, some w.ffLast, some (takeLast 20 w.ffSamples)⟩, false,
          [Ev.uploadWrite] ++ (bgEvs ++ ecEvs ++ [Ev.probeSpawn, Ev.workWrite, Ev.ffmpegSpawn])) := by
    show ((tryBody req w).1, false,
        (if req.hasAudio then [Ev.uploadWrite] else []) ++ (tryBody req w).2) = _
    rw [hbody, haud]
    rfl
  refine ⟨hrun, ?_, ?_, ?_, ?_, by decide, fun _ _ => rfl⟩
  · rw [hhand]
  · rw [hhand]
  · rw [hhand]
  · rw [hhand]
    simp

/-- Witness for C5 at a concrete stuck encoder (never closes, soft 285000 <
hard 295000). -/
theorem C5_soft_timeout_witness :
    runFfmpegModel 285000 295000 none 0 ⟨7000, "", "1.1x", "30", "210", "continue"⟩ []
        = .err .etimedout true ⟨7000, "", "1.1x", "30", "210", "continue"⟩ [] ∧
      (renderHandler false ⟨true, some (.valid true true true true true false)⟩
        ⟨true, true, true, true, .ok 10000, 285000, 295000, none, 0,
          ⟨7000, "", "1.1x", "30", "210", "continue"⟩, []⟩).1.status = 504 := by
  have h := C5_soft_timeout ⟨true, some (.valid true true true true true false)⟩
    ⟨true, true, true, true, .ok 10000, 285000, 295000, none, 0,
      ⟨7000, "", "1.1x", "30", "210", "continue"⟩, []⟩
    true true true true true false rfl rfl rfl (Or.inl rfl) (Or.inl rfl)
    ⟨10000, rfl⟩ (by norm_num) (fun tc htc => by cases htc)
  exact ⟨h.1, h.2.1⟩

/-- C6 counterexample: a well-formed JSON payload that merely omits the
required `assets.base_background_url` field makes `validatePayload` throw a
plain `Error`, which the generic `catch` maps to HTTP 500 — not the HTTP 400
the claim asserts — and the multipart upload staging write has already
happened before the error. -/
theorem C6_counterexample :
    (renderHandler false ⟨true, some (.valid true true false true true false)⟩
        ⟨true, true, true, true, .ok 10000, 285000, 295000, none, 0,
          ⟨0, "", "", "", "", ""⟩, []⟩).1.status = 500 ∧
      ¬((renderHandler false ⟨true, some (.valid true true false true true false)⟩
        ⟨true, true, true, true, .ok 10000, 285000, 295000, none, 0,
          ⟨0, "", "", "", "", ""⟩, []⟩).1.status = 400) ∧
      Ev.uploadWrite ∈ (renderHandler false ⟨true, some (.valid true true false true true false)⟩
        ⟨true, true, true, true, .ok 10000, 285000, 295000, none, 0,
          ⟨0, "", "", "", "", ""⟩, []⟩).2.2 := by
  refine ⟨by decide, by decide, by decide⟩

/-- C6 (amended): with the audio file present, a missing `payload` field or
invalid payload JSON yields HTTP 400, and a parsed payload missing a required
field yields HTTP 500 (thrown by `validatePayload` into the generic catch);
in both cases no encoder or prober subprocess is spawned and no cache or
work-directory write occurs — the only write preceding the error is the
multipart upload staging file written by multer before validation. -/
theorem C6_validation_no_side_effects (req : RReq) (w : World)
    (haud : req.hasAudio = true) :
    ((req.payload = none ∨ req.payload = some .invalid) →
      (renderHandler false req w).1.status = 400 ∧
      (renderHandler false req w).2.2 = [Ev.uploadWrite]) ∧
    (∀ o s b e l d, req.payload = some (.valid o s b e l d) →
      (o && s && b && e && l) = false →
      (renderHandler false req w).1.status = 500 ∧
      (renderHandler false req w).2.2 = [Ev.uploadWrite]) := by
  constructor
  · intro hp
    have hbody : tryBody req w = (⟨400, false, none, none⟩, []) := by
      rw [tryBody, if_neg (by rw [haud]; decide)]
      rcases hp with hp | hp <;> rw [hp]
    have hhand : renderHandler false req w
        = (⟨400, false, none, none⟩, false, [Ev.uploadWrite]) := by
      show ((tryBody req w).1, false,
          (if req.hasAudio then [Ev.uploadWrite] else []) ++ (tryBody req w).2) = _
      rw [hbody, haud]
      rfl
    rw [hhand]
    exact ⟨rfl, rfl⟩
  · intro o s b e l d hp hv
    have hbody : tryBody req w = (⟨500, false, none, none⟩, []) := by
      rw [tryBody, if_neg (by rw [haud]; decide)]
      rw [hp]
      simp only [hv, if_pos]
    have hhand : renderHandler false req w
        = (⟨500, false, none, none⟩, false, [Ev.uploadWrite]) := by
      show ((tryBody req w).1, false,
          (if req.hasAudio then [Ev.uploadWrite] else []) ++ (tryBody req w).2) = _
      rw [hbody, haud]
      rfl
    rw [hhand]
    exact ⟨rfl, rfl⟩

/-- Witness for C6 (amended) at a concrete request with a missing payload
field. -/
theorem C6_validation_no_side_effects_witness :
    (renderHandler false ⟨true, none⟩
        ⟨true, true, true, true, .ok 10000, 285000, 295000, none, 0,
          ⟨0, "", "", "", "", ""⟩, []⟩).1.status = 400 ∧
      (renderHandler false ⟨true, none⟩
        ⟨true, true, true, true, .ok 10000, 285000, 295000, none, 0,
          ⟨0, "", "", "", "", ""⟩, []⟩).2.2 = [Ev.uploadWrite] :=
  (C6_validation_no_side_effects ⟨true, none⟩
    ⟨true, true, true, true, .ok 10000, 285000, 295000, none, 0,
      ⟨0, "", "", "", "", ""⟩, []⟩ rfl).1 (Or.inl rfl)

end Mx
